import Mathlib

/-!
Verification development for the `dospawn` batch-job orchestrator.

The crate provisions a pool of remote machines, expands a FIFO queue of task
templates into concrete task instances, dispatches them over an external
transport, polls for completion, fetches results, and tears the machines
down once the queue is drained, persisting the whole `Job` aggregate to a
state file after every mutating step.

The sources contain two generations of the task-identity scheme:
* the module files `src/job.rs`, `src/machine.rs` model tasks with an
  optional half-open `range` interval (`Job::next_task`, `Job::max_machines`,
  `Job::next_check`) — embedded below in namespace `Mod`;
* the monolithic `src/main.rs` carries the full scheduling loop over tasks
  with an optional `repeat` counter — embedded below in namespace `MainV`.

Machine integers (`usize`) are modelled as `Nat`; `SystemTime` and
`Duration` as points/lengths on a discrete `Nat` timeline; fallible
operations return `Option`; a panic is modelled as the `none` case of an
outer `Option`.
-/

namespace Mod

/-- The replication placeholder literal `{{index}}` substituted by
`Job::next_task` (`src/job.rs`).  The braces are written as escapes. -/
def placeholder : String := "\x7b\x7bindex\x7d\x7d"

/-- Rust `Range<usize>` as used for `Task::range` in `src/job.rs`:
half-open interval `[start, end)`.  Rust's field `end` is a Lean keyword,
so it is named `stop` here. -/
structure SRange where
  start : Nat
  stop : Nat
deriving DecidableEq, Repr

/-- `Task` as used by `src/job.rs` (the range-based generation of the
scheme): `name`, `cmd`, and an optional replication `range`. -/
structure Task where
  name : String
  cmd : String
  range : Option SRange
deriving DecidableEq, Repr

/-- `Config`, `src`-referenced fields.  Modelled from the spec: the crate
root that declares `Config` for the module generation is not under `src/`;
the fields are those referenced by `src/job.rs` (`max_machines`),
`src/machine.rs` (`name`, `image`, `size`, `region`, `ssh_key`, `ssh_user`,
`install_cmd`, `check_interval`) and listed in the spec's configuration
section.  `check_interval` is a `Duration`, modelled as `Nat`. -/
structure Config where
  max_machines : Nat
  name : String
  image : String
  size : String
  region : String
  ssh_key : String
  ssh_user : String
  install_cmd : String
  check_interval : Nat
deriving DecidableEq, Repr

/-- `Machine` from `src/machine.rs`: identity, address, one task slot and
the `next_check` timestamp (`SystemTime`, modelled as `Nat`). -/
structure Machine where
  name : String
  id : String
  ip : String
  task : Option Task
  next_check : Nat
deriving DecidableEq, Repr

/-- `Job` from `src/job.rs`: the root aggregate.  `PathBuf` is modelled as
`String`, `Vec`/`VecDeque` as `List`. -/
structure Job where
  binary : String
  inputs : List String
  config : Config
  machines : List Machine
  tasks : List Task
deriving DecidableEq, Repr

/-- `Job::max_machines` (`src/job.rs` lines 33–45): sums
`task.range.as_ref().map_or(1, |range| range.end - range.start)` over the
queue and takes the minimum with `config.max_machines`.  Rust `usize`
subtraction panics on underflow; `Nat` subtraction truncates — the
difference is irrelevant for well-formed ranges (`start ≤ end`). -/
def Job.max_machines (self : Job) : Nat :=
  let max_tasks :=
    (self.tasks.map fun task =>
      match task.range with
      | none => 1
      | some range => range.stop - range.start).sum
  min max_tasks self.config.max_machines

/-- Following the spec's words (§4.2): the total outstanding instance
count, "over every template still in the queue, its multiplicity: range
width if present, else 1".  Stated separately from `Job.max_machines` so
the sizing bound can be compared against it. -/
def outstandingInstances (tasks : List Task) : Nat :=
  (tasks.map fun task =>
    match task.range with
    | none => 1
    | some range => range.stop - range.start).sum

/-- `Job::next_check` (`src/job.rs` lines 47–56): takes the minimum of the
machines' `next_check` timestamps with `.min().unwrap()` — the `unwrap`
panics on an empty machine list, modelled as the outer `none` — and then
`duration_since(now).ok()`, which is `some (t - now)` when `now ≤ t` and
`none` otherwise. -/
def Job.next_check (self : Job) (now : Nat) : Option (Option Nat) :=
  match (self.machines.map fun machine => machine.next_check).min? with
  | none => none
  | some t => some (if t < now then none else some (t - now))

/-- `Job::next_task` (`src/job.rs` lines 58–74), functionally: pop the
front of the queue (`none` if empty); if the popped template carries a
range of width > 1, push a clone with `start` incremented onto the back;
substitute the placeholder in `name` and `cmd` with the original `start`
rendered in decimal.  Note: the source does **not** clear the returned
task's `range` field (unlike the `repeat` generation in `src/main.rs`,
which sets `task.repeat = None`). -/
def Job.next_task (tasks : List Task) : Option (Task × List Task) :=
  match tasks with
  | [] => none
  | task :: rest =>
    match task.range with
    | none => some (task, rest)
    | some range =>
      let rest' :=
        if range.stop - range.start > 1 then
          rest ++ [{ task with range := some { range with start := range.start + 1 } }]
        else
          rest
      let index := toString range.start
      some ({ task with
                name := task.name.replace placeholder index,
                cmd := task.cmd.replace placeholder index },
            rest')

/-- Driver for stating "repeatedly calling `Job::next_task`": iterate the
source function `fuel` times, returning the produced instances in order
together with the remaining queue. -/
def drain : Nat → List Task → List Task × List Task
  | 0, q => ([], q)
  | fuel + 1, q =>
    match Job.next_task q with
    | none => ([], q)
    | some (t, q') =>
      match drain fuel q' with
      | (out, qf) => (t :: out, qf)

end Mod

namespace Mod

/-- One unfolding of `drain` when the queue yields an instance. -/
theorem drain_cons (fuel : Nat) (q q' : List Task) (t : Task)
    (h : Job.next_task q = some (t, q')) :
    drain (fuel + 1) q = (t :: (drain fuel q').1, (drain fuel q').2) := by
  simp only [drain, h]

/-- Auxiliary for expansion conservation: draining a single-template queue
whose range is `[s, s + w)` with `w ≥ 1` produces the instances for indices
`s, s+1, …, s+w-1` in order and leaves the queue empty.  Each instance
carries the substituted `name`/`cmd` and (as the source leaves it) the
range `[i, s + w)` it was popped with. -/
theorem drain_range (name cmd : String) :
    ∀ (w s : Nat), 0 < w →
      drain w [⟨name, cmd, some ⟨s, s + w⟩⟩] =
        (((List.range' s w).map fun i =>
          (⟨name.replace placeholder (toString i),
            cmd.replace placeholder (toString i), some ⟨i, s + w⟩⟩ : Task)), []) := by
  intro w
  induction w with
  | zero => omega
  | succ n ih =>
    intro s _
    cases n with
    | zero =>
      simp [drain, Job.next_task, List.range', Nat.add_sub_cancel_left]
    | succ m =>
      have hw : s + (m + 1 + 1) - s = m + 2 := by omega
      have hnt : Job.next_task [⟨name, cmd, some ⟨s, s + (m + 1 + 1)⟩⟩] =
          some (⟨name.replace placeholder (toString s),
                 cmd.replace placeholder (toString s), some ⟨s, s + (m + 1 + 1)⟩⟩,
                [⟨name, cmd, some ⟨s + 1, s + (m + 1 + 1)⟩⟩]) := by
        simp [Job.next_task, hw]
      have ihs := ih (s + 1) (Nat.succ_pos m)
      rw [show s + 1 + (m + 1) = s + (m + 1 + 1) from by omega] at ihs
      rw [drain_cons _ _ _ _ hnt, ihs]
      simp [List.range']

end Mod

namespace Mod

/-- C1: for a template with range `[s, e)` and `e - s ≥ 1`, repeatedly
calling `Job::next_task` on a queue containing only that template yields
exactly `e - s` concrete instances whose substituted indices are
`s, s+1, …, e-1` in that order (the enumeration `List.range' s (e - s)`
produces each index exactly once and skips none), the placeholder replaced
in both `name` and `cmd`, and the final queue is empty — in particular for
width 1 no residual template is re-enqueued. -/
theorem c1_expansion_conservation (name cmd : String) (s e : Nat) (h : s < e) :
    drain (e - s) [⟨name, cmd, some ⟨s, e⟩⟩] =
      (((List.range' s (e - s)).map fun i =>
        (⟨name.replace placeholder (toString i),
          cmd.replace placeholder (toString i), some ⟨i, e⟩⟩ : Task)), []) := by
  have he : s + (e - s) = e := by omega
  have hd := drain_range name cmd (e - s) s (by omega)
  rwa [he] at hd

theorem c1_expansion_conservation_witness :
    (1 : Nat) < 4 ∧
    drain (4 - 1) [⟨"t", "c", some ⟨1, 4⟩⟩] =
      (((List.range' 1 (4 - 1)).map fun i =>
        (⟨"t".replace placeholder (toString i),
          "c".replace placeholder (toString i), some ⟨i, 4⟩⟩ : Task)), []) :=
  ⟨by decide, c1_expansion_conservation "t" "c" 1 4 (by decide)⟩

/-- C2 counterexample: the claim says the instance returned by
`Job::next_task` has its `range` field cleared (set to `None`).  On the
concrete queue `[⟨"t", "c", range [3, 5)⟩]` the returned instance's range
is `some ⟨3, 5⟩`, not `none`: `src/job.rs` substitutes `name`/`cmd` but
never assigns `task.range = None`. -/
theorem c2_counterexample :
    ((Job.next_task [⟨"t", "c", some ⟨3, 5⟩⟩]).map fun p => p.1.range) =
        some (some ⟨3, 5⟩) ∧
      (some (some (⟨3, 5⟩ : SRange)) : Option (Option SRange)) ≠ some none :=
  ⟨rfl, by decide⟩

/-- C2 (amended): for every template popped by `Job::next_task` that
carries a range, the returned instance has the placeholder substituted in
both `name` and `cmd` with the original `range.start` rendered in decimal,
but the instance's `range` field is left unchanged (it still carries the
original range); a residual clone with `start + 1` is re-enqueued at the
tail exactly when the width exceeds 1. -/
theorem c2_substitution_range_retained (name cmd : String) (range : SRange)
    (q : List Task) :
    Job.next_task (⟨name, cmd, some range⟩ :: q) =
      some (⟨name.replace placeholder (toString range.start),
             cmd.replace placeholder (toString range.start),
             some range⟩,
            if range.stop - range.start > 1 then
              q ++ [⟨name, cmd, some ⟨range.start + 1, range.stop⟩⟩]
            else q) := by
  obtain ⟨rs, re⟩ := range
  rfl

/-- C3: `Job::max_machines` equals the minimum of `config.max_machines`
and the total outstanding instance count (the sum over queued templates of
range width if present, else 1); in particular it never exceeds
`config.max_machines` and never exceeds the outstanding instance count. -/
theorem c3_pool_sizing_bound (j : Job) :
    j.max_machines = min j.config.max_machines (outstandingInstances j.tasks) ∧
    j.max_machines ≤ j.config.max_machines ∧
    j.max_machines ≤ outstandingInstances j.tasks := by
  refine ⟨Nat.min_comm _ _, Nat.min_le_right _ _, Nat.min_le_left _ _⟩

/-- C9: a template with an empty range `[s, s)` still yields one instance
from `Job::next_task` — index `s` substituted, no residual re-enqueued,
the rest of the queue untouched — while it contributes `0` to the
outstanding-instance sum, so a job whose queue holds only that template
has `max_machines = 0`: one dispatched instance, zero machines justified. -/
theorem c9_empty_range_one_instance_zero_machines (name cmd : String) (s : Nat)
    (q : List Task) (binary : String) (inputs : List String) (config : Config)
    (machines : List Machine) :
    Job.next_task (⟨name, cmd, some ⟨s, s⟩⟩ :: q) =
      some (⟨name.replace placeholder (toString s),
             cmd.replace placeholder (toString s), some ⟨s, s⟩⟩, q) ∧
    outstandingInstances (⟨name, cmd, some ⟨s, s⟩⟩ :: q) = outstandingInstances q ∧
    (Job.mk binary inputs config machines [⟨name, cmd, some ⟨s, s⟩⟩]).max_machines = 0 := by
  refine ⟨?_, ?_, ?_⟩
  · simp [Job.next_task, Nat.sub_self]
  · simp [outstandingInstances, Nat.sub_self]
  · simp [Job.max_machines, Nat.sub_self]

/-- C10: `Job::next_check` unconditionally unwraps the minimum of the
machines' `next_check` timestamps, so on an empty machine list it panics
(modelled as the outer `none`); whenever at least one machine exists it is
total, returning `some` of the `duration_since(now).ok()` value. -/
theorem c10_next_check_partiality (j : Job) (now : Nat) :
    (j.machines = [] → j.next_check now = none) ∧
    (j.machines ≠ [] → ∃ r, j.next_check now = some r) := by
  constructor
  · intro h
    simp [Job.next_check, h]
  · intro h
    match hm : j.machines with
    | [] => exact absurd hm h
    | m :: rest =>
      have hv : j.next_check now =
          some (if List.foldl min m.next_check (rest.map fun machine => machine.next_check) < now
                then none
                else some (List.foldl min m.next_check
                  (rest.map fun machine => machine.next_check) - now)) := by
        simp [Job.next_check, hm, List.min?]
      exact ⟨_, hv⟩

theorem c10_next_check_partiality_witness :
    ((Job.mk "b" [] ⟨1, "n", "i", "s", "r", "k", "u", "c", 60⟩ [] []).next_check 5 = none) ∧
    ∃ r, (Job.mk "b" [] ⟨1, "n", "i", "s", "r", "k", "u", "c", 60⟩
            [⟨"m", "id", "ip", none, 100⟩] []).next_check 5 = some r :=
  ⟨(c10_next_check_partiality _ 5).1 rfl,
   (c10_next_check_partiality _ 5).2 (List.cons_ne_nil _ _)⟩

end Mod

/-! ## The monolithic scheduling loop, `src/main.rs`

Namespace `MainV` embeds the self-contained generation of the program in
`src/main.rs`: repeat-counted tasks, single-slot machines without a
`next_check` timestamp, and the full `main` control flow (provisioning,
bootstrap, and the inner scheduling pass over the machine pool).

Every external interaction (`doctl` create/delete, `ssh` install / start /
check, `scp` copy, `rsync` fetch, and each `Job::write` to the state file)
is a fallible call whose `?` propagation aborts `main`.  Outcomes are
supplied by an oracle `o : Nat → ExtOutcome`, consumed one index per call:
`ExtOutcome.err` models the call failing (the surrounding function aborts,
mirroring `?`), and `ExtOutcome.ok finished` models success, the `Bool`
being read only by `Task::check` as the completion status.  The trace of a
run is a `List Event`; `Event.wrote` records the machine list and task
queue written to the state file (the `binary`/`inputs`/`config` fields of
the `Job` aggregate are never mutated by `main`, so the two mutable fields
determine the whole written document). -/

namespace MainV

/-- `Task` from `src/main.rs`: `repeat` is a Lean keyword, so the field is
named `repeats`. -/
structure Task where
  name : String
  cmd : String
  repeats : Option Nat
deriving DecidableEq, Repr

/-- `Config` from `src/main.rs` lines 113–123. -/
structure Config where
  max_machines : Nat
  name : String
  image : String
  size : String
  region : String
  ssh_key : String
  ssh_user : String
  install_cmd : String
deriving DecidableEq, Repr

/-- `Machine` from `src/main.rs` lines 125–131: one task slot, no
`next_check` timestamp in this generation. -/
structure Machine where
  name : String
  id : String
  ip : String
  task : Option Task
deriving DecidableEq, Repr

/-- `next_task` from `src/main.rs` lines 326–341 (the repeat-counted
generation): pop the front; if the popped template carries a repeat
counter, re-enqueue a clone with the counter decremented when it exceeds
1, append `_{repeat}` to the name, and clear the counter. -/
def next_task (tasks : List Task) : Option (Task × List Task) :=
  match tasks with
  | [] => none
  | task :: rest =>
    match task.repeats with
    | none => some (task, rest)
    | some r =>
      let rest' :=
        if r > 1 then rest ++ [{ task with repeats := some (r - 1) }] else rest
      some ({ task with name := task.name ++ "_" ++ toString r, repeats := none }, rest')

/-- `Job::max_machines` from `src/main.rs` lines 102–110: sums
`task.repeat.map_or(1, |repeat| repeat.max(1))` over the queue and takes
the minimum with `config.max_machines`. -/
def max_machines (tasks : List Task) (config : Config) : Nat :=
  let max_tasks :=
    (tasks.map fun task =>
      match task.repeats with
      | none => 1
      | some r => max r 1).sum
  min max_tasks config.max_machines

/-- Outcome of one external or I/O call, supplied by the oracle: `err`
makes the call fail (its `?` aborts `main`), `ok finished` makes it
succeed; the `Bool` is the completion status reported by `Task::check`
and is ignored by every other call. -/
inductive ExtOutcome where
  | ok (finished : Bool)
  | err
deriving DecidableEq, Repr

/-- Observable events of a run of `main`.  `wrote` carries the machine
list and task queue serialized by `Job::write`; `writeFailed` marks a
failed `Job::write` (always terminal); `deleted` carries the machine
record and the pending queue at the moment `Machine::delete` is issued. -/
inductive Event where
  | created (m : Machine)
  | installed (machine : String)
  | copied (machine : String)
  | fetched (task : String)
  | cleared (machine : String)
  | started (task : String)
  | dispatched (machine : String) (task : String)
  | deleted (m : Machine) (pending : List Task)
  | removed (machine : String)
  | wrote (machines : List Machine) (tasks : List Task)
  | writeFailed
deriving DecidableEq, Repr

/-- The events that mutate the persisted `Job` state: a machine pushed
onto the pool, a finished task cleared from its slot, a task assigned to a
slot, a machine removed from the pool.  (`started` and `deleted` are the
remote side effects preceding the slot assignment / pool removal;
`fetched`, `installed`, `copied` touch only the local result directory or
the remote host.) -/
def Event.isStateChange : Event → Bool
  | .created _ => true
  | .cleared _ => true
  | .dispatched _ _ => true
  | .removed _ => true
  | _ => false

/-- The persistence discipline of `main`: every state-changing event is
immediately followed by a `wrote` event, or by a `writeFailed` event that
terminates the trace; and `writeFailed` is always terminal. -/
def disciplined : List Event → Bool
  | [] => true
  | .writeFailed :: es => es.isEmpty
  | e :: es =>
    if e.isStateChange then
      match es with
      | .wrote _ _ :: es' => disciplined es'
      | .writeFailed :: es' => es'.isEmpty
      | _ => false
    else disciplined es

end MainV

namespace MainV

/-- Lines 41–51 of `src/main.rs`, the probe of one machine's slot: if the
slot holds a task, `Task::check` (consumes `o k`; `?` aborts on `err`,
otherwise reports `finished`), then `Task::fetch_results` (consumes
`o (k+1)`; `?` aborts on `err`) — unconditionally, before the `finished`
test; if finished, clear the slot and `Job::write` (consumes `o (k+2)`).
`acc` are the machines already handled this pass and `rest` the ones still
ahead, so `wrote` can record the whole pool.  Returns the emitted events
and, unless aborted, the (possibly cleared) machine and next oracle
index. -/
def probeStep (o : Nat → ExtOutcome) (k : Nat) (acc : List Machine)
    (m : Machine) (rest : List Machine) (ts : List Task) :
    List Event × Option (Machine × Nat) :=
  match m.task with
  | none => ([], some (m, k))
  | some t =>
    match o k with
    | .err => ([], none)
    | .ok finished =>
      match o (k + 1) with
      | .err => ([], none)
      | .ok _ =>
        if finished then
          let m' : Machine := { m with task := none }
          match o (k + 2) with
          | .err => ([.fetched t.name, .cleared m.name, .writeFailed], none)
          | .ok _ =>
            ([.fetched t.name, .cleared m.name, .wrote (acc ++ m' :: rest) ts],
             some (m', k + 3))
        else
          ([.fetched t.name], some (m, k + 2))

/-- Lines 53–71 of `src/main.rs`, dispatch or teardown for one machine
whose probe has been handled: if the slot is empty, pull the next instance
with `next_task`; if one exists, `Task::start` it (consumes `o k`), put it
in the slot and `Job::write` (consumes `o (k+1)`); if none exists,
`Machine::delete` (consumes `o k`), remove the machine from the pool and
`Job::write` (consumes `o (k+1)`).  Returns the events and, unless
aborted, `some m'` when the machine stays in the pool (or `none` when it
was removed), the updated queue and next oracle index. -/
def dispatchStep (o : Nat → ExtOutcome) (k : Nat) (acc : List Machine)
    (m : Machine) (rest : List Machine) (ts : List Task) :
    List Event × Option (Option Machine × List Task × Nat) :=
  match m.task with
  | some _ => ([], some (some m, ts, k))
  | none =>
    match next_task ts with
    | some (t, ts') =>
      match o k with
      | .err => ([], none)
      | .ok _ =>
        let m' : Machine := { m with task := some t }
        match o (k + 1) with
        | .err => ([.started t.name, .dispatched m.name t.name, .writeFailed], none)
        | .ok _ =>
          ([.started t.name, .dispatched m.name t.name,
            .wrote (acc ++ m' :: rest) ts'],
           some (some m', ts', k + 2))
    | none =>
      match o k with
      | .err => ([], none)
      | .ok _ =>
        match o (k + 1) with
        | .err => ([.deleted m ts, .removed m.name, .writeFailed], none)
        | .ok _ =>
          ([.deleted m ts, .removed m.name, .wrote (acc ++ rest) ts],
           some (none, ts, k + 2))

/-- The inner `while idx < job.machines.len()` pass of `src/main.rs`
lines 36–72, as a left-to-right traversal of the pool (`remove(idx)`
preserves order, so the loop visits each machine once in order).  Returns
the trace and, unless aborted, the surviving pool, remaining queue, and
next oracle index. -/
def innerPass (o : Nat → ExtOutcome) :
    List Machine → Nat → List Machine → List Task →
    List Event × Option (List Machine × List Task × Nat)
  | [], k, acc, ts => ([], some (acc, ts, k))
  | m :: rest, k, acc, ts =>
    match probeStep o k acc m rest ts with
    | (ev1, none) => (ev1, none)
    | (ev1, some (m1, k1)) =>
      match dispatchStep o k1 acc m1 rest ts with
      | (ev2, none) => (ev1 ++ ev2, none)
      | (ev2, some (mk2, ts2, k2)) =>
        match mk2 with
        | some m2 =>
          match innerPass o rest k2 (acc ++ [m2]) ts2 with
          | (ev3, r3) => (ev1 ++ (ev2 ++ ev3), r3)
        | none =>
          match innerPass o rest k2 acc ts2 with
          | (ev3, r3) => (ev1 ++ (ev2 ++ ev3), r3)

/-- The provisioning loop of `src/main.rs` lines 18–26, fuelled: while the
pool is below `max_machines`, `Machine::create` (consumes `o k`; the
Droplet id/ip come from `ids k`), push the machine and `Job::write`
(consumes `o (k+1)`).  Each iteration grows the pool by one, so fuel
`max_machines tasks config` makes the guard the only exit on the success
path. -/
def provisionAux (o : Nat → ExtOutcome) (ids : Nat → String × String)
    (config : Config) (ts : List Task) :
    Nat → List Machine → Nat → List Event × Option (List Machine × Nat)
  | 0, ms, k => ([], some (ms, k))
  | fuel + 1, ms, k =>
    if ms.length < max_machines ts config then
      match o k with
      | .err => ([], none)
      | .ok _ =>
        let m : Machine :=
          { name := config.name ++ "-" ++ toString ms.length,
            id := (ids k).1, ip := (ids k).2, task := none }
        match o (k + 1) with
        | .err => ([.created m, .writeFailed], none)
        | .ok _ =>
          match provisionAux o ids config ts fuel (ms ++ [m]) (k + 2) with
          | (ev, r) => (.created m :: .wrote (ms ++ [m]) ts :: ev, r)
    else ([], some (ms, k))

/-- The provisioning phase with its fuel instantiated. -/
def provision (o : Nat → ExtOutcome) (ids : Nat → String × String)
    (config : Config) (ts : List Task) (ms : List Machine) (k : Nat) :
    List Event × Option (List Machine × Nat) :=
  provisionAux o ids config ts (max_machines ts config) ms k

/-- The bootstrap phase of `src/main.rs` lines 28–33: for every machine
whose slot holds no task, `Machine::install_required_software` (consumes
`o k`) and then `Machine::copy_binary_and_inputs` (consumes `o (k+1)`) —
install first, copy second, in source order.  The pool is only read. -/
def bootstrapPhase (o : Nat → ExtOutcome) :
    List Machine → Nat → List Event × Option Nat
  | [], k => ([], some k)
  | m :: rest, k =>
    match m.task with
    | some _ => bootstrapPhase o rest k
    | none =>
      match o k with
      | .err => ([], none)
      | .ok _ =>
        match o (k + 1) with
        | .err => ([.installed m.name], none)
        | .ok _ =>
          match bootstrapPhase o rest (k + 2) with
          | (ev, r) => (.installed m.name :: .copied m.name :: ev, r)

/-- One pass of `main` (`src/main.rs` lines 13–78): provisioning phase,
bootstrap phase, then one iteration of the outer scheduling loop (the
outer `while !job.machines.is_empty()` repeats `innerPass` on the
resulting state; every claim proved over `runOnce` is quantified over an
arbitrary starting state, which covers every later iteration). -/
def runOnce (o : Nat → ExtOutcome) (ids : Nat → String × String)
    (config : Config) (ms : List Machine) (ts : List Task) :
    List Event × Option (List Machine × List Task × Nat) :=
  match provision o ids config ts ms 0 with
  | (ev1, none) => (ev1, none)
  | (ev1, some (ms1, k1)) =>
    match bootstrapPhase o ms1 k1 with
    | (ev2, none) => (ev1 ++ ev2, none)
    | (ev2, some k2) =>
      match innerPass o ms1 k2 [] ts with
      | (ev3, r) => (ev1 ++ (ev2 ++ ev3), r)

end MainV

namespace MainV

/-- `next_task` returns nothing exactly when the queue is empty (every
popped template, counted or not, yields an instance). -/
theorem next_task_eq_none (ts : List Task) : next_task ts = none ↔ ts = [] := by
  cases ts with
  | nil => simp [next_task]
  | cons t rest =>
    simp only [next_task]
    cases t.repeats <;> simp

/-- The probe of a slot never emits a `deleted` event. -/
theorem probeStep_no_deleted (o : Nat → ExtOutcome) (k : Nat)
    (acc : List Machine) (m : Machine) (rest : List Machine) (ts : List Task)
    (m' : Machine) (q' : List Task) :
    Event.deleted m' q' ∉ (probeStep o k acc m rest ts).1 := by
  unfold probeStep
  repeat' split
  all_goals simp

/-- If the dispatch phase emits a `deleted` event, the deleted machine's
slot was empty and the recorded pending queue was empty. -/
theorem dispatchStep_deleted (o : Nat → ExtOutcome) (k : Nat)
    (acc : List Machine) (m : Machine) (rest : List Machine) (ts : List Task)
    (m' : Machine) (q' : List Task)
    (h : Event.deleted m' q' ∈ (dispatchStep o k acc m rest ts).1) :
    m'.task = none ∧ q' = [] := by
  unfold dispatchStep at h
  split at h
  · simp at h
  next hm =>
    split at h
    next t ts' hnt =>
      split at h
      · simp at h
      · split at h <;> simp at h
    next hnt =>
      split at h
      · simp at h
      · split at h
        · simp at h
          obtain ⟨he, hq⟩ := h
          subst he
          subst hq
          exact ⟨hm, (next_task_eq_none _).mp hnt⟩
        · simp at h
          obtain ⟨he, hq⟩ := h
          subst he
          subst hq
          exact ⟨hm, (next_task_eq_none _).mp hnt⟩

end MainV

namespace MainV

/-- C4: destruction safety.  For every state of the scheduling loop
(arbitrary pool, queue, oracle and oracle position — which covers every
reachable state, since each outer iteration runs `innerPass` on some such
state), whenever the pass issues a machine teardown — the `deleted` event,
which carries the machine record and the pending queue at decision time,
and is immediately followed by the removal from the pool — that machine's
task slot is empty and the shared pending task queue is empty. -/
theorem c4_destruction_safety (o : Nat → ExtOutcome) :
    ∀ (ms : List Machine) (k : Nat) (acc : List Machine) (ts : List Task)
      (m : Machine) (q : List Task),
      Event.deleted m q ∈ (innerPass o ms k acc ts).1 →
      m.task = none ∧ q = [] := by
  intro ms
  induction ms with
  | nil =>
    intro k acc ts m q h
    simp [innerPass] at h
  | cons hd rest ih =>
    intro k acc ts m q h
    simp only [innerPass] at h
    rcases hps : probeStep o k acc hd rest ts with ⟨ev1, r1⟩
    rw [hps] at h
    have hnd1 : Event.deleted m q ∉ ev1 := by
      have hh := probeStep_no_deleted o k acc hd rest ts m q
      rw [hps] at hh
      exact hh
    rcases r1 with _ | ⟨m1, k1⟩
    · exact absurd h hnd1
    · simp only at h
      rcases hds : dispatchStep o k1 acc m1 rest ts with ⟨ev2, r2⟩
      rw [hds] at h
      have hd2 : Event.deleted m q ∈ ev2 → m.task = none ∧ q = [] := by
        intro hmem
        have hh := dispatchStep_deleted o k1 acc m1 rest ts m q
        rw [hds] at hh
        exact hh hmem
      rcases r2 with _ | ⟨mk2, ts2, k2⟩
      · simp only [List.mem_append] at h
        rcases h with h | h
        · exact absurd h hnd1
        · exact hd2 h
      · simp only at h
        rcases mk2 with _ | m2
        · simp only at h
          rcases hip : innerPass o rest k2 acc ts2 with ⟨ev3, r3⟩
          rw [hip] at h
          simp only [List.mem_append] at h
          rcases h with h | h | h
          · exact absurd h hnd1
          · exact hd2 h
          · have hh := ih k2 acc ts2 m q
            rw [hip] at hh
            exact hh h
        · simp only at h
          rcases hip : innerPass o rest k2 (acc ++ [m2]) ts2 with ⟨ev3, r3⟩
          rw [hip] at h
          simp only [List.mem_append] at h
          rcases h with h | h | h
          · exact absurd h hnd1
          · exact hd2 h
          · have hh := ih k2 (acc ++ [m2]) ts2 m q
            rw [hip] at hh
            exact hh h

theorem c4_destruction_safety_witness :
    Event.deleted ⟨"m", "i", "p", none⟩ [] ∈
        (innerPass (fun _ => ExtOutcome.ok true) [⟨"m", "i", "p", none⟩] 0 [] []).1 ∧
      (⟨"m", "i", "p", none⟩ : Machine).task = none ∧ ([] : List Task) = [] :=
  ⟨by decide,
   c4_destruction_safety (fun _ => ExtOutcome.ok true) [⟨"m", "i", "p", none⟩] 0 [] []
     ⟨"m", "i", "p", none⟩ [] (by decide)⟩

end MainV

namespace MainV

/-- C5 counterexample: the claim says the binary and inputs are copied
first and the install command runs after the copy.  On a single fresh
machine with every external call succeeding, the bootstrap phase of
`src/main.rs` (lines 28–33) emits `installed` *before* `copied`:
`install_required_software` is called first, `copy_binary_and_inputs`
second. -/
theorem c5_counterexample :
    (bootstrapPhase (fun _ => ExtOutcome.ok true) [⟨"m", "i", "p", none⟩] 0).1 =
        [Event.installed "m", Event.copied "m"] ∧
      [Event.installed "m", Event.copied "m"] ≠
        [Event.copied "m", Event.installed "m"] :=
  ⟨rfl, by decide⟩

/-- C5 (amended): during the bootstrap phase, for every machine whose slot
holds no task (in particular every machine that has never held one), the
install command is run first and the binary and inputs are copied after
the install; this happens exactly once per machine — each empty-slot
machine contributes exactly its `installed`-then-`copied` pair, in pool
order — and, by the structure of `main` (see `runOnce`), before the
scheduling loop begins.  Stated under the hypothesis that no external
call fails (a failure aborts the run). -/
theorem c5_bootstrap_install_then_copy (o : Nat → ExtOutcome)
    (ms : List Machine) (k : Nat) (h : ∀ n, o n ≠ ExtOutcome.err) :
    (bootstrapPhase o ms k).1 =
      ms.flatMap (fun m =>
        match m.task with
        | none => [Event.installed m.name, Event.copied m.name]
        | some _ => []) := by
  induction ms generalizing k with
  | nil => simp [bootstrapPhase]
  | cons m rest ih =>
    rcases hm : m.task with _ | t
    · have h1 : ∃ b, o k = ExtOutcome.ok b := by
        cases hk : o k with
        | ok b => exact ⟨b, rfl⟩
        | err => exact absurd hk (h k)
      have h2 : ∃ b, o (k + 1) = ExtOutcome.ok b := by
        cases hk : o (k + 1) with
        | ok b => exact ⟨b, rfl⟩
        | err => exact absurd hk (h (k + 1))
      obtain ⟨b1, hb1⟩ := h1
      obtain ⟨b2, hb2⟩ := h2
      rcases hbp : bootstrapPhase o rest (k + 2) with ⟨ev, r⟩
      have ihr := ih (k + 2)
      rw [hbp] at ihr
      simp only at ihr
      simp only [bootstrapPhase, hm, hb1, hb2, hbp, List.flatMap_cons]
      rw [ihr]
      simp
    · have ihr := ih k
      simp only [bootstrapPhase, hm, List.flatMap_cons]
      rw [ihr]
      simp

theorem c5_bootstrap_install_then_copy_witness :
    (∀ n : Nat, (fun _ : Nat => ExtOutcome.ok true) n ≠ ExtOutcome.err) ∧
    (bootstrapPhase (fun _ : Nat => ExtOutcome.ok true)
        [⟨"m0", "i", "p", none⟩, ⟨"m1", "i", "p", some ⟨"t", "c", none⟩⟩] 0).1 =
      [⟨"m0", "i", "p", none⟩, (⟨"m1", "i", "p", some ⟨"t", "c", none⟩⟩ : Machine)].flatMap
        (fun m =>
          match m.task with
          | none => [Event.installed m.name, Event.copied m.name]
          | some _ => []) :=
  ⟨fun _ hc => ExtOutcome.noConfusion hc,
   c5_bootstrap_install_then_copy (fun _ : Nat => ExtOutcome.ok true)
     [⟨"m0", "i", "p", none⟩, ⟨"m1", "i", "p", some ⟨"t", "c", none⟩⟩] 0
     (fun _ hc => ExtOutcome.noConfusion hc)⟩

/-- C6 counterexample: the claim says results are retrieved only when the
task is finished (absent a `fetch_partial_results` option, whose default
is false — `src/main.rs`'s `Config` has no such field at all).  With an
oracle reporting the task as *not* finished, the pass over one occupied
machine still emits `fetched "t"` — `task.fetch_results(...)?` runs on
every probe, before the `finished` test — and the slot still holds the
task afterwards. -/
theorem c6_counterexample :
    (innerPass (fun _ => ExtOutcome.ok false)
        [⟨"m", "i", "p", some ⟨"t", "c", none⟩⟩] 0 [] []).1 = [Event.fetched "t"] ∧
    (innerPass (fun _ => ExtOutcome.ok false)
        [⟨"m", "i", "p", some ⟨"t", "c", none⟩⟩] 0 [] []).2 =
      some ([⟨"m", "i", "p", some ⟨"t", "c", none⟩⟩], [], 2) :=
  ⟨rfl, rfl⟩

/-- C6 (amended): on each probe of an occupied slot whose `Task::check`
and `Task::fetch_results` transport calls succeed, results are fetched
regardless of whether the task is finished; the `Config` of `src/main.rs`
offers no `fetch_partial_results` switch. -/
theorem c6_fetch_on_every_probe (o : Nat → ExtOutcome) (k : Nat)
    (acc : List Machine) (m : Machine) (rest : List Machine) (ts : List Task)
    (t : Task) (finished b : Bool)
    (h1 : m.task = some t) (h2 : o k = ExtOutcome.ok finished)
    (h3 : o (k + 1) = ExtOutcome.ok b) :
    Event.fetched t.name ∈ (probeStep o k acc m rest ts).1 := by
  simp only [probeStep, h1, h2, h3]
  cases finished with
  | false => simp
  | true =>
    cases o (k + 2) <;> simp

theorem c6_fetch_on_every_probe_witness :
    Event.fetched "t" ∈
      (probeStep (fun _ => ExtOutcome.ok false) 0 []
        ⟨"m", "i", "p", some ⟨"t", "c", none⟩⟩ [] []).1 :=
  c6_fetch_on_every_probe (fun _ => ExtOutcome.ok false) 0 []
    ⟨"m", "i", "p", some ⟨"t", "c", none⟩⟩ [] [] ⟨"t", "c", none⟩ false false
    rfl rfl rfl

end MainV

namespace MainV

@[simp] theorem disciplined_nil : disciplined [] = true := rfl

@[simp] theorem disciplined_installed (n : String) (es : List Event) :
    disciplined (.installed n :: es) = disciplined es := by
  rw [disciplined.eq_def]; rfl

@[simp] theorem disciplined_copied (n : String) (es : List Event) :
    disciplined (.copied n :: es) = disciplined es := by
  rw [disciplined.eq_def]; rfl

@[simp] theorem disciplined_fetched (n : String) (es : List Event) :
    disciplined (.fetched n :: es) = disciplined es := by
  rw [disciplined.eq_def]; rfl

@[simp] theorem disciplined_started (n : String) (es : List Event) :
    disciplined (.started n :: es) = disciplined es := by
  rw [disciplined.eq_def]; rfl

@[simp] theorem disciplined_deleted (m : Machine) (q : List Task) (es : List Event) :
    disciplined (.deleted m q :: es) = disciplined es := by
  rw [disciplined.eq_def]; rfl

@[simp] theorem disciplined_wrote (ms : List Machine) (ts : List Task) (es : List Event) :
    disciplined (.wrote ms ts :: es) = disciplined es := by
  rw [disciplined.eq_def]; rfl

@[simp] theorem disciplined_created_wrote (m : Machine) (ms : List Machine)
    (ts : List Task) (es : List Event) :
    disciplined (.created m :: .wrote ms ts :: es) = disciplined es := by
  rw [disciplined.eq_def]; rfl

@[simp] theorem disciplined_created_wfail (m : Machine) :
    disciplined [.created m, .writeFailed] = true := by
  rw [disciplined.eq_def]; rfl

@[simp] theorem disciplined_cleared_wrote (n : String) (ms : List Machine)
    (ts : List Task) (es : List Event) :
    disciplined (.cleared n :: .wrote ms ts :: es) = disciplined es := by
  rw [disciplined.eq_def]; rfl

@[simp] theorem disciplined_cleared_wfail (n : String) :
    disciplined [.cleared n, .writeFailed] = true := by
  rw [disciplined.eq_def]; rfl

@[simp] theorem disciplined_dispatched_wrote (n t : String) (ms : List Machine)
    (ts : List Task) (es : List Event) :
    disciplined (.dispatched n t :: .wrote ms ts :: es) = disciplined es := by
  rw [disciplined.eq_def]; rfl

@[simp] theorem disciplined_dispatched_wfail (n t : String) :
    disciplined [.dispatched n t, .writeFailed] = true := by
  rw [disciplined.eq_def]; rfl

@[simp] theorem disciplined_removed_wrote (n : String) (ms : List Machine)
    (ts : List Task) (es : List Event) :
    disciplined (.removed n :: .wrote ms ts :: es) = disciplined es := by
  rw [disciplined.eq_def]; rfl

@[simp] theorem disciplined_removed_wfail (n : String) :
    disciplined [.removed n, .writeFailed] = true := by
  rw [disciplined.eq_def]; rfl

end MainV

namespace MainV

/-- The probe of a slot keeps the persistence discipline: if it aborts its
own trace is disciplined (any `writeFailed` terminal), and if it succeeds
its trace is discipline-transparent before any continuation. -/
theorem probeStep_disciplined (o : Nat → ExtOutcome) (k : Nat)
    (acc : List Machine) (m : Machine) (rest : List Machine) (ts : List Task) :
    ((probeStep o k acc m rest ts).2 = none →
      disciplined (probeStep o k acc m rest ts).1 = true) ∧
    ∀ x, (probeStep o k acc m rest ts).2 = some x →
      ∀ es, disciplined ((probeStep o k acc m rest ts).1 ++ es) = disciplined es := by
  unfold probeStep
  rcases hm : m.task with _ | t
  · simp
  · rcases hok : o k with b | _
    · rcases hof : o (k + 1) with b2 | _
      · cases b with
        | false => simp
        | true =>
          rcases hw : o (k + 2) with b3 | _
          · simp
          · simp
      · simp
    · simp

/-- The dispatch/teardown of a machine keeps the persistence discipline. -/
theorem dispatchStep_disciplined (o : Nat → ExtOutcome) (k : Nat)
    (acc : List Machine) (m : Machine) (rest : List Machine) (ts : List Task) :
    ((dispatchStep o k acc m rest ts).2 = none →
      disciplined (dispatchStep o k acc m rest ts).1 = true) ∧
    ∀ x, (dispatchStep o k acc m rest ts).2 = some x →
      ∀ es, disciplined ((dispatchStep o k acc m rest ts).1 ++ es) = disciplined es := by
  unfold dispatchStep
  rcases hm : m.task with _ | t
  · rcases hnt : next_task ts with _ | ⟨t, ts'⟩
    · rcases hok : o k with b | _
      · rcases hw : o (k + 1) with b2 | _
        · simp
        · simp
      · simp
    · rcases hok : o k with b | _
      · rcases hw : o (k + 1) with b2 | _
        · simp
        · simp
      · simp
  · simp

end MainV

namespace MainV

/-- The provisioning loop keeps the persistence discipline: every
`created` is immediately followed by a `wrote` of the grown pool, or by a
terminal `writeFailed`. -/
theorem provisionAux_disciplined (o : Nat → ExtOutcome) (ids : Nat → String × String)
    (config : Config) (ts : List Task) :
    ∀ (fuel : Nat) (ms : List Machine) (k : Nat),
      ((provisionAux o ids config ts fuel ms k).2 = none →
        disciplined (provisionAux o ids config ts fuel ms k).1 = true) ∧
      ∀ x, (provisionAux o ids config ts fuel ms k).2 = some x →
        ∀ es, disciplined ((provisionAux o ids config ts fuel ms k).1 ++ es) =
          disciplined es := by
  intro fuel
  induction fuel with
  | zero => intro ms k; simp [provisionAux]
  | succ n ih =>
    intro ms k
    by_cases hg : ms.length < max_machines ts config
    · rcases hok : o k with b | _
      · rcases hw : o (k + 1) with b2 | _
        · rcases hrec : provisionAux o ids config ts n
            (ms ++ [{ name := config.name ++ "-" ++ toString ms.length,
                      id := (ids k).1, ip := (ids k).2, task := none }]) (k + 2)
            with ⟨ev, r⟩
          have ihr := ih (ms ++ [{ name := config.name ++ "-" ++ toString ms.length,
                                   id := (ids k).1, ip := (ids k).2, task := none }]) (k + 2)
          rw [hrec] at ihr
          simp only at ihr
          obtain ⟨ih1, ih2⟩ := ihr
          simp only [provisionAux, if_pos hg, hok, hw, hrec]
          rcases r with _ | x
          · constructor
            · intro _
              simp [ih1 rfl]
            · intro x hx
              simp at hx
          · constructor
            · intro hx
              simp at hx
            · intro y _ es
              simp only [List.cons_append, disciplined_created_wrote]
              exact ih2 x rfl es
        · simp [provisionAux, if_pos hg, hok, hw]
      · simp [provisionAux, if_pos hg, hok]
    · simp [provisionAux, if_neg hg]

/-- The bootstrap phase emits no state-changing events, so it keeps the
persistence discipline trivially. -/
theorem bootstrapPhase_disciplined (o : Nat → ExtOutcome) :
    ∀ (ms : List Machine) (k : Nat),
      ((bootstrapPhase o ms k).2 = none →
        disciplined (bootstrapPhase o ms k).1 = true) ∧
      ∀ x, (bootstrapPhase o ms k).2 = some x →
        ∀ es, disciplined ((bootstrapPhase o ms k).1 ++ es) = disciplined es := by
  intro ms
  induction ms with
  | nil => intro k; simp [bootstrapPhase]
  | cons m rest ih =>
    intro k
    rcases hm : m.task with _ | t
    · rcases hok : o k with b | _
      · rcases hof : o (k + 1) with b2 | _
        · rcases hrec : bootstrapPhase o rest (k + 2) with ⟨ev, r⟩
          have ihr := ih (k + 2)
          rw [hrec] at ihr
          simp only at ihr
          obtain ⟨ih1, ih2⟩ := ihr
          simp only [bootstrapPhase, hm, hok, hof, hrec]
          rcases r with _ | x
          · constructor
            · intro _
              simp [ih1 rfl]
            · intro x hx
              simp at hx
          · constructor
            · intro hx
              simp at hx
            · intro y _ es
              simp only [List.cons_append, disciplined_installed, disciplined_copied]
              exact ih2 x rfl es
        · simp [bootstrapPhase, hm, hok, hof]
      · simp [bootstrapPhase, hm, hok]
    · simpa only [bootstrapPhase, hm] using ih k

end MainV

namespace MainV

/-- The inner scheduling pass keeps the persistence discipline. -/
theorem innerPass_disciplined (o : Nat → ExtOutcome) :
    ∀ (ms : List Machine) (k : Nat) (acc : List Machine) (ts : List Task),
      (((innerPass o ms k acc ts).2 = none →
        disciplined (innerPass o ms k acc ts).1 = true) ∧
      ∀ x, (innerPass o ms k acc ts).2 = some x →
        ∀ es, disciplined ((innerPass o ms k acc ts).1 ++ es) = disciplined es) := by
  intro ms
  induction ms with
  | nil => intro k acc ts; simp [innerPass]
  | cons m rest ih =>
    intro k acc ts
    rcases hps : probeStep o k acc m rest ts with ⟨ev1, r1⟩
    have hp := probeStep_disciplined o k acc m rest ts
    rw [hps] at hp
    simp only at hp
    obtain ⟨p1, p2⟩ := hp
    rcases r1 with _ | ⟨m1, k1⟩
    · simp only [innerPass, hps]
      constructor
      · intro _
        exact p1 rfl
      · intro x hx
        simp at hx
    · rcases hds : dispatchStep o k1 acc m1 rest ts with ⟨ev2, r2⟩
      have hdd := dispatchStep_disciplined o k1 acc m1 rest ts
      rw [hds] at hdd
      simp only at hdd
      obtain ⟨d1, d2⟩ := hdd
      rcases r2 with _ | ⟨mk2, ts2, k2⟩
      · simp only [innerPass, hps, hds]
        constructor
        · intro _
          rw [p2 (m1, k1) rfl ev2]
          exact d1 rfl
        · intro x hx
          simp at hx
      · rcases mk2 with _ | m2
        · rcases hip : innerPass o rest k2 acc ts2 with ⟨ev3, r3⟩
          have ihr := ih k2 acc ts2
          rw [hip] at ihr
          simp only at ihr
          obtain ⟨i1, i2⟩ := ihr
          simp only [innerPass, hps, hds, hip]
          rcases r3 with _ | x3
          · constructor
            · intro _
              rw [p2 (m1, k1) rfl, d2 (none, ts2, k2) rfl]
              exact i1 rfl
            · intro x hx
              simp at hx
          · constructor
            · intro hx
              simp at hx
            · intro y _ es
              rw [List.append_assoc, List.append_assoc,
                  p2 (m1, k1) rfl, d2 (none, ts2, k2) rfl]
              exact i2 x3 rfl es
        · rcases hip : innerPass o rest k2 (acc ++ [m2]) ts2 with ⟨ev3, r3⟩
          have ihr := ih k2 (acc ++ [m2]) ts2
          rw [hip] at ihr
          simp only at ihr
          obtain ⟨i1, i2⟩ := ihr
          simp only [innerPass, hps, hds, hip]
          rcases r3 with _ | x3
          · constructor
            · intro _
              rw [p2 (m1, k1) rfl, d2 (some m2, ts2, k2) rfl]
              exact i1 rfl
            · intro x hx
              simp at hx
          · constructor
            · intro hx
              simp at hx
            · intro y _ es
              rw [List.append_assoc, List.append_assoc,
                  p2 (m1, k1) rfl, d2 (some m2, ts2, k2) rfl]
              exact i2 x3 rfl es

end MainV

namespace MainV

/-- C7: persistence discipline of one pass of `main` (provisioning,
bootstrap, scheduling pass), for every starting state and every oracle:
in the emitted trace, every state-changing step — machine created and
appended (`created`), finished task cleared from a slot (`cleared`), task
dispatched into a slot (`dispatched`), machine removed from the pool
(`removed`) — is immediately followed by a `wrote` event recording the
full machine list and task queue (the only `Job` fields `main` ever
mutates) before anything else happens, or by a `writeFailed` event that is
the last event of the trace: a failed `Job::write` terminates the run, so
the loop never proceeds past a step whose result was not persisted.  The
outer loop of `main` repeats `innerPass` on the resulting state, and the
quantification over arbitrary starting states covers those iterations as
well. -/
theorem c7_persist_every_state_change (o : Nat → ExtOutcome)
    (ids : Nat → String × String) (config : Config) (ms : List Machine)
    (ts : List Task) :
    disciplined (runOnce o ids config ms ts).1 = true := by
  rcases hp : provision o ids config ts ms 0 with ⟨ev1, r1⟩
  have hpd := provisionAux_disciplined o ids config ts (max_machines ts config) ms 0
  rw [show provisionAux o ids config ts (max_machines ts config) ms 0 =
        (ev1, r1) from hp] at hpd
  simp only at hpd
  obtain ⟨p1, p2⟩ := hpd
  rcases r1 with _ | ⟨ms1, k1⟩
  · simp only [runOnce, hp]
    exact p1 rfl
  · rcases hb : bootstrapPhase o ms1 k1 with ⟨ev2, r2⟩
    have hbd := bootstrapPhase_disciplined o ms1 k1
    rw [hb] at hbd
    simp only at hbd
    obtain ⟨b1, b2⟩ := hbd
    rcases r2 with _ | k2
    · simp only [runOnce, hp, hb]
      rw [p2 (ms1, k1) rfl ev2]
      exact b1 rfl
    · rcases hi : innerPass o ms1 k2 [] ts with ⟨ev3, r3⟩
      have hid := innerPass_disciplined o ms1 k2 [] ts
      rw [hi] at hid
      simp only at hid
      obtain ⟨i1, i2⟩ := hid
      simp only [runOnce, hp, hb, hi]
      rcases r3 with _ | x3
      · rw [p2 (ms1, k1) rfl, b2 k2 rfl]
        exact i1 rfl
      · rw [p2 (ms1, k1) rfl, b2 k2 rfl]
        have hev3 := i2 x3 rfl []
        rw [List.append_nil] at hev3
        rw [hev3]
        exact disciplined_nil

end MainV

/-! ## Persistence round-trip, `Job::read` / `Job::write` (`src/job.rs` lines 21–31)

`Job::write` is `write(path, to_vec(self)?)` and `Job::read` is
`from_slice(read(path)?)` with the `serde_yaml` codec over the derived
`Serialize`/`Deserialize` impls.  Modelled from the spec: the byte-level
YAML codec lives in the external `serde_yaml` crate, not under `src/`;
per the spec the persisted state file is "a structured document containing
the Job aggregate verbatim" that "must round-trip exactly".  The document
is modelled as a `Value` tree mirroring the serde data model (strings,
naturals, sequences, field maps, and `null` for a vacant `Option`), with
the encoder following the derived field layout of `Job`, `Config`,
`Machine`, `Task` and the decoder accepting exactly the canonical layout
the encoder produces (the real deserializer is more lenient about field
order; acceptance of the canonical form is what the round-trip needs). -/

namespace Mod

/-- A structured document node of the persisted state file. -/
inductive Value where
  | str (s : String)
  | nat (n : Nat)
  | seq (items : List Value)
  | fields (kvs : List (String × Value))
  | null

/-- An absent `Option` serializes as `null`, a present one transparently. -/
def encodeOption (f : α → Value) : Option α → Value
  | none => .null
  | some a => f a

/-- Decoding counterpart of `encodeOption`; `null` is `None`, anything
else must decode as the payload. -/
def decodeOption (f : Value → Option α) : Value → Option (Option α)
  | .null => some none
  | v => (f v).map some

def SRange.encode (r : SRange) : Value :=
  .fields [("start", .nat r.start), ("end", .nat r.stop)]

def SRange.decode : Value → Option SRange
  | .fields [("start", .nat s), ("end", .nat e)] => some ⟨s, e⟩
  | _ => none

def Task.encode (t : Task) : Value :=
  .fields [("name", .str t.name), ("cmd", .str t.cmd),
           ("range", encodeOption SRange.encode t.range)]

def Task.decode : Value → Option Task
  | .fields [("name", .str n), ("cmd", .str c), ("range", r)] =>
    (decodeOption SRange.decode r).map fun range => ⟨n, c, range⟩
  | _ => none

def Machine.encode (m : Machine) : Value :=
  .fields [("name", .str m.name), ("id", .str m.id), ("ip", .str m.ip),
           ("task", encodeOption Task.encode m.task),
           ("next_check", .nat m.next_check)]

def Machine.decode : Value → Option Machine
  | .fields [("name", .str n), ("id", .str i), ("ip", .str p),
             ("task", t), ("next_check", .nat c)] =>
    (decodeOption Task.decode t).map fun task => ⟨n, i, p, task, c⟩
  | _ => none

def Config.encode (c : Config) : Value :=
  .fields [("max_machines", .nat c.max_machines), ("name", .str c.name),
           ("image", .str c.image), ("size", .str c.size),
           ("region", .str c.region), ("ssh_key", .str c.ssh_key),
           ("ssh_user", .str c.ssh_user), ("install_cmd", .str c.install_cmd),
           ("check_interval", .nat c.check_interval)]

def Config.decode : Value → Option Config
  | .fields [("max_machines", .nat m), ("name", .str n), ("image", .str i),
             ("size", .str s), ("region", .str r), ("ssh_key", .str k),
             ("ssh_user", .str u), ("install_cmd", .str c),
             ("check_interval", .nat v)] =>
    some ⟨m, n, i, s, r, k, u, c, v⟩
  | _ => none

/-- Element-wise decoding of a sequence body. -/
def decodeListWith (f : Value → Option α) : List Value → Option (List α)
  | [] => some []
  | v :: vs => do
    let a ← f v
    let as ← decodeListWith f vs
    some (a :: as)

/-- `Job::write` (`src/job.rs` line 27–31) up to the external byte codec:
the structured document `to_vec` produces for the aggregate. -/
def Job.write (self : Job) : Value :=
  .fields [("binary", .str self.binary),
           ("inputs", .seq (self.inputs.map .str)),
           ("config", self.config.encode),
           ("machines", .seq (self.machines.map Machine.encode)),
           ("tasks", .seq (self.tasks.map Task.encode))]

/-- `Job::read` (`src/job.rs` line 21–25) up to the external byte codec:
`from_slice` on the structured document, `none` modelling a
deserialization error. -/
def Job.read : Value → Option Job
  | .fields [("binary", .str b), ("inputs", .seq is), ("config", c),
             ("machines", .seq ms), ("tasks", .seq ts)] => do
    let inputs ← decodeListWith (fun v =>
      match v with
      | .str s => some s
      | _ => none) is
    let config ← Config.decode c
    let machines ← decodeListWith Machine.decode ms
    let tasks ← decodeListWith Task.decode ts
    some ⟨b, inputs, config, machines, tasks⟩
  | _ => none

end Mod

namespace Mod

theorem decodeOption_not_null (g : Value → Option α) (v : Value)
    (hv : v ≠ Value.null) : decodeOption g v = (g v).map some := by
  cases v <;> first | rfl | exact absurd rfl hv

theorem decodeOption_encodeOption (f : α → Value) (g : Value → Option α)
    (h : ∀ a, g (f a) = some a) (hnn : ∀ a, f a ≠ Value.null) (x : Option α) :
    decodeOption g (encodeOption f x) = some x := by
  cases x with
  | none => rfl
  | some a =>
    show decodeOption g (f a) = some (some a)
    rw [decodeOption_not_null g (f a) (hnn a), h a]
    rfl

theorem srange_decode_encode (r : SRange) : SRange.decode r.encode = some r := by
  cases r
  rfl

theorem task_decode_encode (t : Task) : Task.decode t.encode = some t := by
  obtain ⟨n, c, rg⟩ := t
  show (decodeOption SRange.decode (encodeOption SRange.encode rg)).map _ = _
  rw [decodeOption_encodeOption SRange.encode SRange.decode srange_decode_encode
    (fun a => by cases a; exact fun hc => Value.noConfusion hc) rg]
  rfl

theorem machine_decode_encode (m : Machine) : Machine.decode m.encode = some m := by
  obtain ⟨n, i, p, t, c⟩ := m
  show (decodeOption Task.decode (encodeOption Task.encode t)).map _ = _
  rw [decodeOption_encodeOption Task.encode Task.decode task_decode_encode
    (fun a => by cases a; exact fun hc => Value.noConfusion hc) t]
  rfl

theorem config_decode_encode (c : Config) : Config.decode c.encode = some c := by
  cases c
  rfl

theorem decodeListWith_map (f : Value → Option α) (enc : α → Value)
    (h : ∀ a, f (enc a) = some a) (l : List α) :
    decodeListWith f (l.map enc) = some l := by
  induction l with
  | nil => rfl
  | cons a as ih =>
    simp only [List.map_cons, decodeListWith, h a, ih, Option.bind_eq_bind,
      Option.some_bind]

/-- C8: the persistence format round-trips exactly — for every `Job`
value (binary path, input paths, config, machine list with slot contents
and next-check timestamps, pending task queue), `Job::read` applied to the
document `Job::write` produces yields the identical in-memory `Job`. -/
theorem c8_state_file_round_trip (j : Job) : Job.read j.write = some j := by
  obtain ⟨b, is, c, ms, ts⟩ := j
  show (do
    let inputs ← decodeListWith _ (is.map Value.str)
    let config ← Config.decode c.encode
    let machines ← decodeListWith Machine.decode (ms.map Machine.encode)
    let tasks ← decodeListWith Task.decode (ts.map Task.encode)
    some (⟨b, inputs, config, machines, tasks⟩ : Job)) = some ⟨b, is, c, ms, ts⟩
  rw [decodeListWith_map _ Value.str (fun a => rfl) is,
      config_decode_encode c,
      decodeListWith_map Machine.decode Machine.encode machine_decode_encode ms,
      decodeListWith_map Task.decode Task.encode task_decode_encode ts]
  rfl

end Mod
